import Mathlib

/-!
Verification of the novel-formatting and lint script of this repository
(src/scripts/py/optimize_novel.py).

Shallow embedding: a character is a Lean Char, a line is a List Char, a
document is a List of lines.  The functions below are direct translations
of the Python code: optimizeLines models the line-rewriting core of
optimize_novel, lintLoop models the per-line scan of lint_check, and the
read/decode helpers model the utf-8-sig file reads.
-/

/-- Python str whitespace (the characters stripped by str.strip, str.rstrip
and str.lstrip with no argument): ASCII whitespace, the C1 separators, and
the Unicode space characters, including U+3000 IDEOGRAPHIC SPACE. -/
def isPySpace (c : Char) : Bool :=
  (9 ≤ c.toNat && c.toNat ≤ 13) || (28 ≤ c.toNat && c.toNat ≤ 32) ||
  c.toNat = 0x85 || c.toNat = 0xa0 || c.toNat = 0x1680 ||
  (0x2000 ≤ c.toNat && c.toNat ≤ 0x200a) ||
  c.toNat = 0x2028 || c.toNat = 0x2029 || c.toNat = 0x202f ||
  c.toNat = 0x205f || c.toNat = 0x3000

/-- The full-width (ideographic) space U+3000, written as a literal in the
Python source. -/
def fwsp : Char := '　'

/-- The byte-order mark U+FEFF. -/
def bomChar : Char := '﻿'

/-- Python line.rstrip(): drop trailing whitespace. -/
def rstripPy (l : List Char) : List Char := (l.reverse.dropWhile isPySpace).reverse

/-- Python line.lstrip(): drop leading whitespace. -/
def lstripPy (l : List Char) : List Char := l.dropWhile isPySpace

/-- Python line.strip(). -/
def stripPy (l : List Char) : List Char := lstripPy (rstripPy l)

/-- Python s.replace(bom, empty): delete every U+FEFF. -/
def removeBOM (l : List Char) : List Char := l.filter (fun c => c != bomChar)

/-- The per-line cleanup of optimize_novel:
stripped = line.rstrip().replace(bom, empty). -/
def strippedOf (l : List Char) : List Char := removeBOM (rstripPy l)

/-- Python s.lstrip of the full-width space: drop leading U+3000. -/
def lstripFW (l : List Char) : List Char := l.dropWhile (fun c => c == fwsp)

/-- One character of the chapter-number character class of the patterns
(an ASCII decimal digit, or one of the listed CJK numeral characters). -/
def isChapterNumChar (c : Char) : Bool :=
  c.isDigit || c == '一' || c == '二' || c == '三' || c == '四' || c == '五' ||
  c == '六' || c == '七' || c == '八' || c == '九' || c == '十' ||
  c == '百' || c == '千' || c == '万'

/-- After the leading chapter marker and one chapter-number character:
accept the closing marker, or further chapter-number characters. -/
def chapterCont : List Char → Bool
  | [] => false
  | c :: rest => if c = '章' then true else isChapterNumChar c && chapterCont rest

/-- The chapter-heading prefix pattern of the source (both regexes of the
Python code; the second is subsumed by the first): the line starts with the
chapter marker, one or more chapter-number characters, and the closing
marker, followed by anything. -/
def matchesChapter : List Char → Bool
  | c :: d :: rest => c == '第' && isChapterNumChar d && chapterCont rest
  | _ => false

/-- Whether the main loop classifies a line as a chapter heading: the line
is not blank after the per-line cleanup, and its content after the leading
full-width-space strip matches the chapter pattern. -/
def isHeadingLine (l : List Char) : Bool :=
  !(strippedOf l).isEmpty && matchesChapter (lstripFW (strippedOf l))

/-- The statistics dictionary of optimize_novel. -/
structure RunStats where
  total_lines : Nat
  empty_lines_removed : Nat
  chapters_found : Nat
  formatting_fixed : Nat
  trailing_spaces_removed : Nat
deriving DecidableEq

/-- The main while-loop of optimize_novel.  The output lines are
accumulated in reverse order (newest first); prevEmpty is the prev_empty
flag.  The lookahead original_lines at i plus one of the Python code is the
head of the remaining input. -/
def optLoop : List (List Char) → List (List Char) → Bool → RunStats →
    List (List Char) × RunStats
  | [], racc, _, st => (racc, st)
  | line :: rest, racc, prevEmpty, st =>
    let stripped := strippedOf line
    let st1 := if rstripPy line ≠ line then
      { st with trailing_spaces_removed := st.trailing_spaces_removed + 1 } else st
    if stripped = [] then
      if prevEmpty then
        optLoop rest racc true
          { st1 with empty_lines_removed := st1.empty_lines_removed + 1 }
      else
        optLoop rest ([] :: racc) true st1
    else
      let testLine := lstripFW stripped
      if matchesChapter testLine then
        let st2 := { st1 with chapters_found := st1.chapters_found + 1 }
        let racc1 :=
          match racc.head? with
          | some h => if stripPy h = [] then racc else [] :: racc
          | none => racc
        let racc2 := (fwsp :: fwsp :: testLine) :: racc1
        let racc3 :=
          match rest.head? with
          | some nxt => if stripPy nxt = [] then racc2 else [] :: racc2
          | none => racc2
        optLoop rest racc3 false st2
      else
        let contentPart := lstripFW stripped
        let normalizedLine := fwsp :: fwsp :: contentPart
        let st2 := if stripped ≠ normalizedLine then
          { st1 with formatting_fixed := st1.formatting_fixed + 1 } else st1
        optLoop rest (normalizedLine :: racc) false st2

/-- The final while-loop of optimize_novel: pop trailing blank output lines
(the accumulator is reversed, so they are popped from the front). -/
def trimTrailing : List (List Char) → RunStats → List (List Char) × RunStats
  | [], st => ([], st)
  | l :: racc, st =>
    if stripPy l = [] then
      trimTrailing racc { st with empty_lines_removed := st.empty_lines_removed + 1 }
    else (l :: racc, st)

/-- The initial statistics dictionary: total_lines is the number of
newline-split input segments, all other counters start at zero. -/
def initStats (ls : List (List Char)) : RunStats := ⟨ls.length, 0, 0, 0, 0⟩

/-- All-zero statistics, used to factor the counters out of the loops. -/
def zeroStats : RunStats := ⟨0, 0, 0, 0, 0⟩

/-- Pointwise sum of two statistics records. -/
def addStats (a b : RunStats) : RunStats :=
  ⟨a.total_lines + b.total_lines, a.empty_lines_removed + b.empty_lines_removed,
   a.chapters_found + b.chapters_found, a.formatting_fixed + b.formatting_fixed,
   a.trailing_spaces_removed + b.trailing_spaces_removed⟩

/-- Equality of statistics except for the trailing-whitespace counter. -/
def statsET (a b : RunStats) : Prop :=
  a.total_lines = b.total_lines ∧ a.empty_lines_removed = b.empty_lines_removed ∧
  a.chapters_found = b.chapters_found ∧ a.formatting_fixed = b.formatting_fixed

/-- Two input lines that the main loop cannot distinguish except through
the trailing-whitespace counter: same cleaned-up content, and blank for the
strip()-based lookahead at the same time. -/
def lineEquiv (a b : List Char) : Prop :=
  strippedOf a = strippedOf b ∧ (stripPy a = [] ↔ stripPy b = [])

/-- The whole line-rewriting pass of optimize_novel on the split lines:
main loop, then trailing-blank trim; returns output lines in order with the
final statistics. -/
def optimizeLines (ls : List (List Char)) : List (List Char) × RunStats :=
  let r1 := optLoop ls [] false (initStats ls)
  let r2 := trimTrailing r1.1 r1.2
  (r2.1.reverse, r2.2)

/-- Python content.split(newline): split into newline-delimited segments;
the empty content gives one empty segment. -/
def splitNL : List Char → List (List Char)
  | [] => [[]]
  | c :: rest =>
    if c = '\n' then [] :: splitNL rest
    else
      match splitNL rest with
      | [] => [[c]]
      | l :: ls => (c :: l) :: ls

/-- Python newline.join(lines). -/
def joinNL : List (List Char) → List Char
  | [] => []
  | l :: rest =>
    match rest with
    | [] => l
    | _ :: _ => l ++ '\n' :: joinNL rest

/-- The utf-8-sig codec on decoded text: a byte-order mark at the very
start of the file is removed. -/
def decodeUtf8Sig (cs : List Char) : List Char :=
  if cs.head? = some bomChar then cs.tail else cs

/-- The read phase of optimize_novel: open with encoding utf-8-sig, then
the explicit startswith(bom) strip of the code. -/
def readContent (cs : List Char) : List Char :=
  let c := decodeUtf8Sig cs
  if c.head? = some bomChar then c.tail else c

/-- optimize_novel as a function of the read outcome (none when the open or
read raised) and the write outcome (false when the write raised): returns
the boolean result of the Python function together with the text written to
the output file, none when no write happened at all. -/
def optimize_novel (readResult : Option (List Char)) (writeOk : Bool) :
    Bool × Option (List Char) :=
  match readResult with
  | none => (false, none)
  | some raw =>
    let content := readContent raw
    let r := optimizeLines (splitNL content)
    let text := joinNL r.1
    if writeOk then (true, some text) else (false, some text)

/-- The output lines of a successful run of optimize_novel on raw file text. -/
def optimizeOutput (raw : List Char) : List (List Char) :=
  (optimizeLines (splitNL (readContent raw))).1

/-- The statistics reported by a run of optimize_novel on raw file text. -/
def optimizeStats (raw : List Char) : RunStats :=
  (optimizeLines (splitNL (readContent raw))).2

/-- The text optimize_novel writes to the output file. -/
def optimizeText (raw : List Char) : List Char := joinNL (optimizeOutput raw)

/-- Whether a character list ends with a newline. -/
def endsWithNewline (cs : List Char) : Bool :=
  match cs.getLast? with
  | some c => c == '\n'
  | none => false

/-- The lint issue categories that lint_check can report (the fourth check
of the source evaluates but never appends an issue). -/
inductive LintType
  | blankRun
  | trailingWS
  | bomInLine
deriving DecidableEq

/-- A lint issue: 1-based line number and category (the human-readable
message of the source is presentational and not modelled). -/
structure LintIssue where
  line : Nat
  type : LintType
deriving DecidableEq

/-- The per-line scan of lint_check: 1-based index, running count of
consecutive blank lines, remaining lines (as produced by readlines, with
their newline terminators kept). -/
def lintLoop : Nat → Nat → List (List Char) → List LintIssue
  | _, _, [] => []
  | i, consecutiveEmpty, line :: rest =>
    let stripped := stripPy line
    let ce1 := if stripped = [] then consecutiveEmpty + 1 else 0
    let issues1 : List LintIssue :=
      if 2 < ce1 then [⟨i, LintType.blankRun⟩] else []
    let issues2 : List LintIssue :=
      if rstripPy line ≠ line then [⟨i, LintType.trailingWS⟩] else []
    let issues4 : List LintIssue :=
      if line.contains bomChar then [⟨i, LintType.bomInLine⟩] else []
    issues1 ++ issues2 ++ issues4 ++ lintLoop (i + 1) ce1 rest

/-- Python f.readlines(): split after every newline, keeping the newline
terminators; the empty file gives no lines. -/
def readlines : List Char → List (List Char)
  | [] => []
  | c :: rest =>
    if c = '\n' then ['\n'] :: readlines rest
    else
      match readlines rest with
      | [] => [[c]]
      | l :: ls => (c :: l) :: ls

/-- lint_check on raw file text: read with utf-8-sig, then scan every line
starting from line 1 with the consecutive-blank counter at 0. -/
def lint_check (raw : List Char) : List LintIssue :=
  lintLoop 1 0 (readlines (decodeUtf8Sig raw))

/-- How many issues of a given category carry a given line number. -/
def countIssues (issues : List LintIssue) (t : LintType) (n : Nat) : Nat :=
  (issues.filter (fun iss => iss.type == t && iss.line == n)).length

/-- The value of the consecutive-blank counter at every line, scanning top
to bottom: a blank line increments it, any non-blank line resets it to 0. -/
def blankRunLen : Nat → List (List Char) → List Nat
  | _, [] => []
  | ce, l :: rest =>
    let ce1 := if stripPy l = [] then ce + 1 else 0
    ce1 :: blankRunLen ce1 rest

/-- Normal form of a line emitted by the main loop on byte-order-mark-free
input: the empty line, or exactly two full-width spaces followed by
nonempty content that does not start with a further full-width space, with
no trailing whitespace and no byte-order mark anywhere. -/
def NFLine (l : List Char) : Prop :=
  l = [] ∨ ∃ c, l = fwsp :: fwsp :: c ∧ c ≠ [] ∧ c.head? ≠ some fwsp ∧
    rstripPy l = l ∧ bomChar ∉ l

/-- Adjacency discipline of normalized output: no two consecutive blank
lines, and every line adjacent to a chapter heading is blank. -/
def PairOK (a b : List Char) : Prop :=
  ¬(a = [] ∧ b = []) ∧ (isHeadingLine a = true → b = []) ∧
  (isHeadingLine b = true → a = [])

/-- The chapter-counting test input of the specification. -/
def c2Input : List Char := "第一章 开始\n内容\n\n\n第2章 继续\n更多内容".toList

/-- Line k of the output is immediately preceded by exactly one blank line
(so in particular a preceding line exists), and is immediately followed by
exactly one blank line where following lines exist. -/
def headingSurround (out : List (List Char)) (k : Nat) : Prop :=
  (0 < k ∧ out.getD (k - 1) [] = [] ∧ (2 ≤ k → out.getD (k - 2) [] ≠ [])) ∧
  (out.getD (k + 1) [] = [] ∧ (k + 2 < out.length → out.getD (k + 2) [] ≠ []))

instance (out : List (List Char)) (k : Nat) : Decidable (headingSurround out k) := by
  unfold headingSurround
  infer_instance

/-- Like headingSurround, but the preceded-by-one-blank requirement applies
only when a preceding line exists. -/
def headingSurroundW (out : List (List Char)) (k : Nat) : Prop :=
  (0 < k → out.getD (k - 1) [] = [] ∧ (2 ≤ k → out.getD (k - 2) [] ≠ [])) ∧
  (out.getD (k + 1) [] = [] ∧ (k + 2 < out.length → out.getD (k + 2) [] ≠ []))

instance (out : List (List Char)) (k : Nat) : Decidable (headingSurroundW out k) := by
  unfold headingSurroundW
  infer_instance

/-- The chapter-counting claim exactly as stated: 2 chapters found, and
every chapter-heading output line is immediately preceded by exactly one
blank line and immediately followed by exactly one blank line (where a
following line exists). -/
def c2OriginalClaim : Prop :=
  (optimizeStats c2Input).chapters_found = 2 ∧
  ∀ k, k < (optimizeOutput c2Input).length →
    isHeadingLine ((optimizeOutput c2Input).getD k []) = true →
    headingSurround (optimizeOutput c2Input) k

instance : Decidable c2OriginalClaim := by
  unfold c2OriginalClaim
  infer_instance

/-- C7: whenever reading the input file fails, optimize_novel reports the
failure, returns false, and performs no write at all (the written-text
component is none for both possible write outcomes). -/
theorem C7_read_failure_no_write (w : Bool) : optimize_novel none w = (false, none) := rfl

/-- C2 counterexample: the chapter-counting claim as stated is false on the
specified input, because the first chapter heading is the very first output
line and so is not preceded by any blank line. -/
theorem C2_counterexample : decide c2OriginalClaim = false := by decide

/-- C2 (amended): on the specified input the Normalizer reports exactly 2
chapters found; every chapter-heading output line that has a preceding line
is immediately preceded by exactly one blank line, and every chapter-heading
line is immediately followed by exactly one blank line.  The amendment:
the first heading is the first output line, so it has no preceding blank. -/
theorem C2_chapter_counting_amended :
    (optimizeStats c2Input).chapters_found = 2 ∧
    ∀ k, k < (optimizeOutput c2Input).length →
      isHeadingLine ((optimizeOutput c2Input).getD k []) = true →
      headingSurroundW (optimizeOutput c2Input) k := by
  decide

/-- C1 counterexample: normalizing twice is not the same as normalizing
once for a document with a byte-order mark in the middle: the blank test of
the main loop strips the byte-order mark but the strip()-based lookahead
does not, so the first run emits two consecutive blank lines and the second
run collapses them. -/
theorem C1_counterexample :
    (optimizeText (optimizeText ('第' :: '1' :: '章' :: '\n' :: '﻿' :: '\n' :: 'y' :: []))
      == optimizeText ('第' :: '1' :: '章' :: '\n' :: '﻿' :: '\n' :: 'y' :: [])) = false := by
  decide

/-- C4 counterexample: the output for a document with a byte-order-mark-only
line right after a chapter heading contains two adjacent empty lines
(positions 1 and 2 of the output). -/
theorem C4_counterexample :
    (optimizeOutput ('第' :: '1' :: '章' :: '\n' :: '﻿' :: '\n' :: 'x' :: [])).getD 1 [] = [] ∧
    (optimizeOutput ('第' :: '1' :: '章' :: '\n' :: '﻿' :: '\n' :: 'x' :: [])).getD 2 [] = [] ∧
    2 < (optimizeOutput ('第' :: '1' :: '章' :: '\n' :: '﻿' :: '\n' :: 'x' :: [])).length := by
  decide

/-- C3 counterexample: a byte-order mark that is the very first character
of the file is removed by the utf-8-sig read, so the first raw line of the
file contains a byte-order mark yet lint_check emits no issue of the
byte-order-mark category for line 1. -/
theorem C3_counterexample :
    ((readlines ('﻿' :: 'a' :: [])).getD 0 []).contains bomChar = true ∧
    countIssues (lint_check ('﻿' :: 'a' :: [])) LintType.bomInLine 1 = 0 := by
  decide

theorem splitNL_ne_nil (cs : List Char) : splitNL cs ≠ [] := by
  cases cs with
  | nil => simp [splitNL]
  | cons c rest =>
    simp only [splitNL]
    split
    · simp
    · split <;> simp

theorem splitNL_length (cs : List Char) : (splitNL cs).length = cs.count '\n' + 1 := by
  induction cs with
  | nil => simp [splitNL]
  | cons c rest ih =>
    by_cases h : c = '\n'
    · subst h
      simp [splitNL, List.count_cons, ih]
    · simp only [splitNL, if_neg h]
      cases hs : splitNL rest with
      | nil => exact absurd hs (splitNL_ne_nil rest)
      | cons l ls =>
        have : (l :: ls).length = rest.count '\n' + 1 := hs ▸ ih
        simpa [List.count_cons, h] using this

theorem optLoop_total (ls : List (List Char)) : ∀ racc pe st,
    (optLoop ls racc pe st).2.total_lines = st.total_lines := by
  induction ls with
  | nil => intro racc pe st; rfl
  | cons line rest ih =>
    intro racc pe st
    simp only [optLoop]
    split
    · split
      · rw [ih]
        split <;> rfl
      · rw [ih]
        split <;> rfl
    · split
      · rw [ih]
        split <;> rfl
      · rw [ih]
        split <;> · split <;> rfl

theorem trimTrailing_total (racc : List (List Char)) : ∀ st,
    (trimTrailing racc st).2.total_lines = st.total_lines := by
  induction racc with
  | nil => intro st; rfl
  | cons l racc ih =>
    intro st
    simp only [trimTrailing]
    split
    · rw [ih]
    · rfl

theorem count_nl_readContent (raw : List Char) :
    (readContent raw).count '\n' = raw.count '\n' := by
  have key : ∀ cs : List Char, cs.head? = some bomChar →
      cs.tail.count '\n' = cs.count '\n' := by
    intro cs h
    cases cs with
    | nil => simp at h
    | cons c r =>
      simp only [List.head?_cons, Option.some.injEq] at h
      subst h
      simp [List.count_cons]
      decide
  simp only [readContent, decodeUtf8Sig]
  by_cases h1 : raw.head? = some bomChar
  · simp only [if_pos h1]
    by_cases h2 : raw.tail.head? = some bomChar
    · rw [if_pos h2, key _ h2, key _ h1]
    · rw [if_neg h2, key _ h1]
  · simp only [if_neg h1]

/-- C9: the total_lines value reported equals the number of
newline-delimited segments of the raw input, that is the number of newline
characters plus one (the read-time strip of a leading byte-order mark does
not change the newline count). -/
theorem C9_total_lines (raw : List Char) :
    (optimizeStats raw).total_lines = raw.count '\n' + 1 := by
  unfold optimizeStats optimizeLines
  simp only [trimTrailing_total, optLoop_total, initStats, splitNL_length,
    count_nl_readContent]

theorem countIssues_append (a b : List LintIssue) (t : LintType) (n : Nat) :
    countIssues (a ++ b) t n = countIssues a t n + countIssues b t n := by
  simp [countIssues, List.filter_append]

theorem countIssues_singleton (i : Nat) (ty : LintType) (t : LintType) (n : Nat) :
    countIssues [⟨i, ty⟩] t n = if ty = t ∧ i = n then 1 else 0 := by
  by_cases h1 : ty = t <;> by_cases h2 : i = n <;>
    simp [countIssues, List.filter_cons, h1, h2]

theorem countIssues_nil (t : LintType) (n : Nat) : countIssues [] t n = 0 := rfl

theorem lintLoop_line_lb (ls : List (List Char)) : ∀ i ce,
    ∀ iss ∈ lintLoop i ce ls, i ≤ iss.line := by
  induction ls with
  | nil => intro i ce iss h; simp [lintLoop] at h
  | cons line rest ih =>
    intro i ce iss h
    simp only [lintLoop, List.mem_append] at h
    rcases h with ((h1 | h2) | h3) | h4
    · split at h1 <;> simp_all
    · split at h2 <;> simp_all
    · split at h3 <;> simp_all
    · exact Nat.le_trans (Nat.le_succ i) (ih (i + 1) _ iss h4)

theorem countIssues_lintLoop_of_lt (ls : List (List Char)) (t : LintType) :
    ∀ i ce n, n < i → countIssues (lintLoop i ce ls) t n = 0 := by
  intro i ce n h
  simp only [countIssues, List.length_eq_zero]
  rw [List.filter_eq_nil_iff]
  intro iss hmem
  have := lintLoop_line_lb ls i ce iss hmem
  have hne : iss.line ≠ n := by omega
  simp [hne]

theorem countIssues_lintLoop_bom (ls : List (List Char)) : ∀ i ce k, k < ls.length →
    countIssues (lintLoop i ce ls) LintType.bomInLine (i + k) =
    if (ls.getD k []).contains bomChar then 1 else 0 := by
  induction ls with
  | nil => intro i ce k h; simp at h
  | cons line rest ih =>
    intro i ce k h
    simp only [lintLoop]
    cases k with
    | zero =>
      simp only [Nat.add_zero, countIssues_append, List.getD_cons_zero]
      rw [countIssues_lintLoop_of_lt rest _ (i + 1) _ i (Nat.lt_succ_self i)]
      repeat' split
      all_goals simp_all [countIssues_singleton, countIssues_nil]
    | succ k =>
      simp only [countIssues_append, List.getD_cons_succ]
      have hne : ¬(i = i + (k + 1)) := by omega
      have heq : i + (k + 1) = (i + 1) + k := by omega
      rw [heq, ih (i + 1) _ k (by simpa using h)]
      repeat' split
      all_goals simp_all [countIssues_singleton, countIssues_nil, hne]

/-- C3 (amended): for every input file and every line of the decoded
content that contains the byte-order mark anywhere, the Lint Pass emits
exactly one issue of the byte-order-mark category carrying that line's
1-based number, and no such issue for lines without one.  The amendment:
the utf-8-sig read removes a byte-order mark that is the very first
character of the file, so that occurrence produces no issue. -/
theorem C3_bom_lint_amended (raw : List Char) (k : Nat)
    (h : k < (readlines (decodeUtf8Sig raw)).length) :
    countIssues (lint_check raw) LintType.bomInLine (k + 1) =
    if ((readlines (decodeUtf8Sig raw)).getD k []).contains bomChar then 1 else 0 := by
  unfold lint_check
  have := countIssues_lintLoop_bom (readlines (decodeUtf8Sig raw)) 1 0 k h
  rwa [Nat.add_comm 1 k] at this

/-- C3 witness: a byte-order mark in the middle of the first line is
reported exactly once for line 1. -/
theorem C3_bom_lint_amended_witness :
    0 < (readlines (decodeUtf8Sig ('a' :: '﻿' :: []))).length ∧
    countIssues (lint_check ('a' :: '﻿' :: [])) LintType.bomInLine 1 =
    if ((readlines (decodeUtf8Sig ('a' :: '﻿' :: []))).getD 0 []).contains bomChar
      then 1 else 0 :=
  ⟨by decide, C3_bom_lint_amended ('a' :: '﻿' :: []) 0 (by decide)⟩

theorem countIssues_lintLoop_blank (ls : List (List Char)) : ∀ i ce k, k < ls.length →
    countIssues (lintLoop i ce ls) LintType.blankRun (i + k) =
    if 2 < (blankRunLen ce ls).getD k 0 then 1 else 0 := by
  induction ls with
  | nil => intro i ce k h; simp at h
  | cons line rest ih =>
    intro i ce k h
    simp only [lintLoop, blankRunLen]
    cases k with
    | zero =>
      simp only [Nat.add_zero, countIssues_append, List.getD_cons_zero]
      rw [countIssues_lintLoop_of_lt rest _ (i + 1) _ i (Nat.lt_succ_self i)]
      repeat' split
      all_goals simp_all [countIssues_singleton, countIssues_nil]
    | succ k =>
      simp only [countIssues_append, List.getD_cons_succ]
      have hne : ¬(i = i + (k + 1)) := by omega
      have heq : i + (k + 1) = (i + 1) + k := by omega
      rw [heq, ih (i + 1) _ k (by simpa using h)]
      repeat' split
      all_goals simp_all [countIssues_singleton, countIssues_nil, hne]

/-- C6: scanning top to bottom with a running count of consecutive blank
lines that resets to 0 on any non-blank line, the Lint Pass emits exactly
one excess-blank-run issue for a line exactly when that line is a blank
line whose running count exceeds 2 (a blank line past the second in a run
of three or more), and no such issue otherwise. -/
theorem C6_blank_run_lint (raw : List Char) (k : Nat)
    (h : k < (readlines (decodeUtf8Sig raw)).length) :
    countIssues (lint_check raw) LintType.blankRun (k + 1) =
    if 2 < (blankRunLen 0 (readlines (decodeUtf8Sig raw))).getD k 0 then 1 else 0 := by
  unfold lint_check
  have := countIssues_lintLoop_blank (readlines (decodeUtf8Sig raw)) 1 0 k h
  rwa [Nat.add_comm 1 k] at this

/-- C6 witness: in a run of four blank lines, the third and later blank
lines are each reported; here line 3 of the concrete file. -/
theorem C6_blank_run_lint_witness :
    2 < (readlines (decodeUtf8Sig ('\n' :: '\n' :: '\n' :: 'a' :: []))).length ∧
    countIssues (lint_check ('\n' :: '\n' :: '\n' :: 'a' :: [])) LintType.blankRun 3 =
    if 2 < (blankRunLen 0 (readlines (decodeUtf8Sig
      ('\n' :: '\n' :: '\n' :: 'a' :: [])))).getD 2 0 then 1 else 0 :=
  ⟨by decide, C6_blank_run_lint ('\n' :: '\n' :: '\n' :: 'a' :: []) 2 (by decide)⟩

theorem mem_rstripPy {c : Char} {l : List Char} (h : c ∈ rstripPy l) : c ∈ l := by
  unfold rstripPy at h
  have h1 := List.mem_reverse.mp h
  exact List.mem_reverse.mp ((List.dropWhile_sublist _).subset h1)

theorem mem_strippedOf {c : Char} {l : List Char} (h : c ∈ strippedOf l) : c ∈ l :=
  mem_rstripPy (List.mem_of_mem_filter h)

theorem mem_lstripFW {c : Char} {l : List Char} (h : c ∈ lstripFW l) : c ∈ l :=
  (List.dropWhile_sublist _).subset h

theorem head?_dropWhile_not {α : Type} (p : α → Bool) (l : List α) {c : α}
    (h : (l.dropWhile p).head? = some c) : p c = false := by
  induction l with
  | nil => simp at h
  | cons a r ih =>
    rw [List.dropWhile_cons] at h
    split at h
    · exact ih h
    · simp only [List.head?_cons, Option.some.injEq] at h
      subst h
      simp_all

theorem lstripFW_head_ne (l : List Char) {c : Char}
    (h : (lstripFW l).head? = some c) : c ≠ fwsp := by
  have hb := head?_dropWhile_not _ _ h
  intro he
  subst he
  simp at hb

theorem optLoop_out_forall (P : List Char → Prop) (hnil : P ([] : List Char)) :
    ∀ (ls : List (List Char)) (racc : List (List Char)) (pe : Bool) (st : RunStats),
      (∀ line ∈ ls, P (fwsp :: fwsp :: lstripFW (strippedOf line))) →
      (∀ l ∈ racc, P l) →
      ∀ l ∈ (optLoop ls racc pe st).1, P l := by
  intro ls
  induction ls with
  | nil => intro racc pe st _ hacc l hl; exact hacc l hl
  | cons line rest ih =>
    intro racc pe st hemit hacc l hl
    have hemit' : ∀ l' ∈ rest, P (fwsp :: fwsp :: lstripFW (strippedOf l')) :=
      fun l' h' => hemit l' (List.mem_cons_of_mem _ h')
    have hline := hemit line (List.mem_cons_self line rest)
    simp only [optLoop] at hl
    split at hl
    · split at hl
      · exact ih _ _ _ hemit' hacc l hl
      · refine ih _ _ _ hemit' ?_ l hl
        intro x hx
        rcases List.mem_cons.mp hx with rfl | hx
        · exact hnil
        · exact hacc x hx
    · split at hl
      · refine ih _ _ _ hemit' ?_ l hl
        intro x hx
        have hacc1 : ∀ y, y ∈ (match racc.head? with
            | some h => if stripPy h = [] then racc else [] :: racc
            | none => racc) → P y := by
          intro y hy
          split at hy
          · split at hy
            · exact hacc y hy
            · rcases List.mem_cons.mp hy with rfl | hy
              · exact hnil
              · exact hacc y hy
          · exact hacc y hy
        split at hx
        · split at hx
          · rcases List.mem_cons.mp hx with rfl | hx
            · exact hline
            · exact hacc1 x hx
          · rcases List.mem_cons.mp hx with rfl | hx
            · exact hnil
            · rcases List.mem_cons.mp hx with rfl | hx
              · exact hline
              · exact hacc1 x hx
        · rcases List.mem_cons.mp hx with rfl | hx
          · exact hline
          · exact hacc1 x hx
      · refine ih _ _ _ hemit' ?_ l hl
        intro x hx
        rcases List.mem_cons.mp hx with rfl | hx
        · exact hline
        · exact hacc x hx

theorem trimTrailing_suffix (racc : List (List Char)) : ∀ st,
    (trimTrailing racc st).1 <:+ racc := by
  induction racc with
  | nil => intro st; simp [trimTrailing]
  | cons l r ih =>
    intro st
    simp only [trimTrailing]
    split
    · exact (ih _).trans (List.suffix_cons l r)
    · exact List.suffix_refl _

theorem trimTrailing_head_not_blank (racc : List (List Char)) : ∀ st l,
    (trimTrailing racc st).1.head? = some l → stripPy l ≠ [] := by
  induction racc with
  | nil => intro st l h; simp [trimTrailing] at h
  | cons x r ih =>
    intro st l h
    simp only [trimTrailing] at h
    split at h
    · exact ih _ _ h
    · simp only [List.head?_cons, Option.some.injEq] at h
      subst h
      assumption

theorem optimizeOutput_forall (P : List Char → Prop) (hnil : P ([] : List Char))
    (raw : List Char)
    (hemit : ∀ line ∈ splitNL (readContent raw),
      P (fwsp :: fwsp :: lstripFW (strippedOf line))) :
    ∀ l ∈ optimizeOutput raw, P l := by
  intro l hl
  unfold optimizeOutput optimizeLines at hl
  simp only at hl
  have h1 := List.mem_reverse.mp hl
  have h2 := (trimTrailing_suffix _ _).subset h1
  exact optLoop_out_forall P hnil _ _ _ _ hemit (by intro x hx; simp at hx) l h2

/-- C5: every line of the Normalizer output that is neither blank nor a
chapter heading starts with exactly two full-width spaces, and the
remainder after those two characters does not begin with another full-width
space.  (The hypotheses that the line is nonempty and not a heading are not
needed for the prefix shape: every nonempty output line has it.) -/
theorem C5_prefix_invariant (raw : List Char) (l : List Char)
    (hmem : l ∈ optimizeOutput raw) (hne : l ≠ [])
    (hhead : isHeadingLine l = false) :
    l.take 2 = [fwsp, fwsp] ∧ (l.drop 2).head? ≠ some fwsp := by
  have key := optimizeOutput_forall
    (fun x => x = [] ∨ (x.take 2 = [fwsp, fwsp] ∧ (x.drop 2).head? ≠ some fwsp))
    (Or.inl rfl) raw ?_ l hmem
  · rcases key with rfl | key
    · exact absurd rfl hne
    · exact key
  · intro line _
    refine Or.inr ⟨rfl, ?_⟩
    intro hsome
    exact lstripFW_head_ne _ hsome rfl

/-- C5 witness: a plain one-line document; its single output line is
nonempty, is not a chapter heading, and carries the two full-width-space
prefix with no third full-width space after it. -/
theorem C5_prefix_invariant_witness :
    ((fwsp :: fwsp :: 'a' :: []) ∈ optimizeOutput ('a' :: []) ∧
      (fwsp :: fwsp :: 'a' :: []) ≠ [] ∧
      isHeadingLine (fwsp :: fwsp :: 'a' :: []) = false) ∧
    ((fwsp :: fwsp :: 'a' :: []).take 2 = [fwsp, fwsp] ∧
      ((fwsp :: fwsp :: 'a' :: []).drop 2).head? ≠ some fwsp) :=
  ⟨⟨by decide, by decide, by decide⟩,
    C5_prefix_invariant ('a' :: []) (fwsp :: fwsp :: 'a' :: [])
      (by decide) (by decide) (by decide)⟩

theorem splitNL_no_nl (cs : List Char) : ∀ l ∈ splitNL cs, '\n' ∉ l := by
  induction cs with
  | nil => intro l hl; simp [splitNL] at hl; simp [hl]
  | cons c rest ih =>
    intro l hl
    simp only [splitNL] at hl
    split at hl
    · rcases List.mem_cons.mp hl with rfl | hl
      · simp
      · exact ih l hl
    · rename_i hc
      cases hs : splitNL rest with
      | nil => exact absurd hs (splitNL_ne_nil rest)
      | cons x xs =>
        rw [hs] at hl
        rcases List.mem_cons.mp hl with rfl | hl
        · intro hmem
          rcases List.mem_cons.mp hmem with heq | hmem
          · exact hc heq.symm
          · exact ih x (hs ▸ List.mem_cons_self x xs) hmem
        · exact ih l (hs ▸ List.mem_cons_of_mem x hl)

theorem mem_of_getLast?_eq {α : Type} {l : List α} {a : α}
    (h : l.getLast? = some a) : a ∈ l := by
  cases l with
  | nil => simp at h
  | cons x xs =>
    rw [List.getLast?_eq_getLast _ (by simp)] at h
    have hm := List.getLast_mem (l := x :: xs) (by simp)
    have heq := (Option.some.injEq _ _).mp h
    exact heq ▸ hm

theorem joinNL_getLast? : ∀ (out : List (List Char)) (l : List Char),
    out.getLast? = some l → l ≠ [] → (joinNL out).getLast? = l.getLast? := by
  intro out
  induction out with
  | nil => intro l h; simp at h
  | cons x rest ih =>
    intro l h hne
    cases rest with
    | nil =>
      simp only [List.getLast?_singleton, Option.some.injEq] at h
      subst h
      rfl
    | cons y r =>
      have h' : (y :: r).getLast? = some l := by
        rwa [List.getLast?_cons_cons] at h
      have hj := ih l h' hne
      have hjne : joinNL (y :: r) ≠ [] := by
        intro h0
        rw [h0] at hj
        simp only [List.getLast?_nil] at hj
        exact hne (by
          cases hg : l.getLast? with
          | none => exact List.getLast?_eq_none_iff.mp hg
          | some c => rw [hg] at hj; exact absurd hj.symm (by simp))
      show (x ++ '\n' :: joinNL (y :: r)).getLast? = l.getLast?
      rw [List.getLast?_append]
      cases hc : joinNL (y :: r) with
      | nil => exact absurd hc hjne
      | cons z zs =>
        rw [hc] at hj
        rw [List.getLast?_cons_cons, hj]
        cases hg : l.getLast? with
        | none => exact absurd (List.getLast?_eq_none_iff.mp hg) hne
        | some c => rfl

/-- C10: the text the Normalizer writes never ends with a newline: output
lines are joined with single newline separators after trailing blank lines
are removed, so a trailing newline of the input is not preserved (an empty
or all-blank input yields an empty output file). -/
theorem C10_no_trailing_newline (raw : List Char) :
    endsWithNewline (optimizeText raw) = false := by
  have noNL : ∀ l ∈ optimizeOutput raw, '\n' ∉ l := by
    refine optimizeOutput_forall _ (by simp) raw ?_
    intro line hline
    intro hmem
    rcases List.mem_cons.mp hmem with heq | hmem
    · exact absurd heq (by decide)
    · rcases List.mem_cons.mp hmem with heq | hmem
      · exact absurd heq (by decide)
      · exact splitNL_no_nl _ line hline (mem_strippedOf (mem_lstripFW hmem))
  have lastNB : ∀ l, (optimizeOutput raw).getLast? = some l → stripPy l ≠ [] := by
    intro l h
    unfold optimizeOutput optimizeLines at h
    simp only at h
    rw [List.getLast?_reverse] at h
    exact trimTrailing_head_not_blank _ _ l h
  unfold optimizeText endsWithNewline
  cases hlast : (optimizeOutput raw).getLast? with
  | none =>
    have : optimizeOutput raw = [] := List.getLast?_eq_none_iff.mp hlast
    rw [this]
    rfl
  | some l =>
    have hne : l ≠ [] := by
      intro h0
      exact lastNB l hlast (by rw [h0]; rfl)
    rw [joinNL_getLast? _ l hlast hne]
    cases hg : l.getLast? with
    | none => rfl
    | some c =>
      have hc : c ∈ l := mem_of_getLast?_eq hg
      have : c ≠ '\n' := fun he => noNL l (mem_of_getLast?_eq hlast) (he ▸ hc)
      simp [this]

theorem optLoop_statsET : ∀ (ls racc : List (List Char)) (pe : Bool) (st st' : RunStats),
    statsET st st' →
    (optLoop ls racc pe st).1 = (optLoop ls racc pe st').1 ∧
    statsET (optLoop ls racc pe st).2 (optLoop ls racc pe st').2 := by
  intro ls
  induction ls with
  | nil => intro racc pe st st' h; exact ⟨rfl, h⟩
  | cons line rest ih =>
    intro racc pe st st' h
    obtain ⟨h1, h2, h3, h4⟩ := h
    simp only [optLoop]
    repeat' split
    all_goals apply ih
    all_goals refine ⟨?_, ?_, ?_, ?_⟩ <;> (try simp) <;> omega

theorem trimTrailing_statsET : ∀ (racc : List (List Char)) (st st' : RunStats),
    statsET st st' →
    (trimTrailing racc st).1 = (trimTrailing racc st').1 ∧
    statsET (trimTrailing racc st).2 (trimTrailing racc st').2 := by
  intro racc
  induction racc with
  | nil => intro st st' h; exact ⟨rfl, h⟩
  | cons l r ih =>
    intro st st' h
    obtain ⟨h1, h2, h3, h4⟩ := h
    simp only [trimTrailing]
    split
    · apply ih
      exact ⟨h1, by simp; omega, h3, h4⟩
    · exact ⟨rfl, h1, h2, h3, h4⟩

set_option maxHeartbeats 1000000 in
theorem optLoop_congr : ∀ (ls1 ls2 : List (List Char)), List.Forall₂ lineEquiv ls1 ls2 →
    ∀ (racc : List (List Char)) (pe : Bool) (st st' : RunStats), statsET st st' →
    (optLoop ls1 racc pe st).1 = (optLoop ls2 racc pe st').1 ∧
    statsET (optLoop ls1 racc pe st).2 (optLoop ls2 racc pe st').2 := by
  intro ls1 ls2 hrel
  induction hrel with
  | nil => intro racc pe st st' h; exact ⟨rfl, h⟩
  | cons hab hrel ih =>
    rename_i a b l1 l2
    intro racc pe st st' hst
    obtain ⟨hst1, hst2, hst3, hst4⟩ := hst
    obtain ⟨hstr, hstp⟩ := hab
    simp only [optLoop, ← hstr]
    cases hrel with
    | nil =>
      simp only [List.head?_nil]
      repeat' split
      all_goals apply ih
      all_goals refine ⟨?_, ?_, ?_, ?_⟩ <;> (try simp) <;> omega
    | cons hab2 hrel2 =>
      obtain ⟨hstr2, hstp2⟩ := hab2
      simp only [List.head?_cons]
      rename_i a2 b2 l1' l2'
      by_cases h1 : stripPy a2 = []
      · have h2 : stripPy b2 = [] := hstp2.mp h1
        simp only [h1, h2, reduceIte]
        repeat' split
        all_goals apply ih
        all_goals refine ⟨?_, ?_, ?_, ?_⟩ <;> (try simp) <;> omega
      · have h2 : ¬ stripPy b2 = [] := fun hh => h1 (hstp2.mpr hh)
        simp only [if_neg h1, if_neg h2]
        repeat' split
        all_goals apply ih
        all_goals refine ⟨?_, ?_, ?_, ?_⟩ <;> (try simp) <;> omega

/-- C8: an input line consisting solely of full-width spaces is classified
as blank by the Normalizer: the per-line cleanup empties it, and replacing
it by an ordinary empty line changes neither the output lines (so it is
collapsed with neighbouring blanks and never re-emitted as an indented
paragraph) nor the blank-collapsing counter. -/
theorem C8_fullwidth_space_blank (pre post : List (List Char)) (l : List Char)
    (_hne : l ≠ []) (hfw : ∀ c ∈ l, c = fwsp) :
    strippedOf l = [] ∧
    (optimizeLines (pre ++ l :: post)).1 = (optimizeLines (pre ++ [] :: post)).1 ∧
    (optimizeLines (pre ++ l :: post)).2.empty_lines_removed =
      (optimizeLines (pre ++ [] :: post)).2.empty_lines_removed := by
  have hl : rstripPy l = [] := by
    unfold rstripPy
    have hd : l.reverse.dropWhile isPySpace = [] := by
      rw [List.dropWhile_eq_nil_iff]
      intro x hx
      rw [hfw x (List.mem_reverse.mp hx)]
      decide
    rw [hd]
    rfl
  have hstr : strippedOf l = [] := by unfold strippedOf; rw [hl]; rfl
  have hstp : stripPy l = [] := by unfold stripPy lstripPy; rw [hl]; rfl
  have hrel : List.Forall₂ lineEquiv (pre ++ l :: post) (pre ++ [] :: post) := by
    have h1 : List.Forall₂ lineEquiv pre pre :=
      List.forall₂_same.mpr (fun x _ => ⟨rfl, Iff.rfl⟩)
    have h3 : List.Forall₂ lineEquiv post post :=
      List.forall₂_same.mpr (fun x _ => ⟨rfl, Iff.rfl⟩)
    have h2 : lineEquiv l [] := ⟨by rw [hstr]; rfl, iff_of_true hstp rfl⟩
    exact List.rel_append h1 (List.Forall₂.cons h2 h3)
  have hinit : statsET (initStats (pre ++ l :: post)) (initStats (pre ++ [] :: post)) := by
    refine ⟨?_, rfl, rfl, rfl⟩
    simp [initStats]
  obtain ⟨ho, hs⟩ := optLoop_congr _ _ hrel [] false _ _ hinit
  have htrim := trimTrailing_statsET
      (optLoop (pre ++ [] :: post) [] false (initStats (pre ++ [] :: post))).1
      (optLoop (pre ++ l :: post) [] false (initStats (pre ++ l :: post))).2
      (optLoop (pre ++ [] :: post) [] false (initStats (pre ++ [] :: post))).2 hs
  refine ⟨hstr, ?_, ?_⟩
  · unfold optimizeLines
    simp only
    rw [ho, htrim.1]
  · unfold optimizeLines
    simp only
    rw [ho]
    exact htrim.2.2.1

/-- C8 witness: the single line of one full-width space behaves exactly as
the empty line. -/
theorem C8_fullwidth_space_blank_witness :
    ((fwsp :: []) ≠ [] ∧ (∀ c ∈ (fwsp :: []), c = fwsp)) ∧
    (strippedOf (fwsp :: []) = [] ∧
     (optimizeLines ([] ++ (fwsp :: []) :: [])).1 =
       (optimizeLines ([] ++ [] :: [])).1 ∧
     (optimizeLines ([] ++ (fwsp :: []) :: [])).2.empty_lines_removed =
       (optimizeLines ([] ++ [] :: [])).2.empty_lines_removed) :=
  ⟨⟨by decide, by decide⟩,
    C8_fullwidth_space_blank [] [] (fwsp :: []) (by decide) (by decide)⟩

theorem rstrip_getLast_not_space (l : List Char) {x : Char}
    (h : (rstripPy l).getLast? = some x) : isPySpace x = false := by
  unfold rstripPy at h
  rw [List.getLast?_reverse] at h
  exact head?_dropWhile_not _ _ h

theorem rstrip_eq_self (l : List Char)
    (h : ∀ x, l.getLast? = some x → isPySpace x = false) : rstripPy l = l := by
  unfold rstripPy
  cases hr : l.reverse with
  | nil =>
    have : l = [] := by simpa using congrArg List.reverse hr
    subst this
    rfl
  | cons c m =>
    have hc : l.getLast? = some c := by
      rw [← List.head?_reverse, hr]
      rfl
    rw [List.dropWhile_cons, h c hc]
    simp only [Bool.false_eq_true, if_neg (by simp : ¬False)]
    rw [← hr, List.reverse_reverse]

theorem strippedOf_no_bom (l : List Char) (h : bomChar ∉ l) :
    strippedOf l = rstripPy l := by
  unfold strippedOf removeBOM
  rw [List.filter_eq_self]
  intro a ha
  have : a ≠ bomChar := fun he => h (he ▸ mem_rstripPy ha)
  simpa using this

theorem stripPy_eq_lstrip_of_rstrip_self (l : List Char) (h : rstripPy l = l) :
    stripPy l = lstripPy l := by
  unfold stripPy
  rw [h]

theorem lstrip_ne_nil_of_last (l : List Char) {x : Char}
    (hx : l.getLast? = some x) (hs : isPySpace x = false) : lstripPy l ≠ [] := by
  intro h0
  have hall := List.dropWhile_eq_nil_iff.mp h0
  exact absurd (hall x (mem_of_getLast?_eq hx)) (by simp [hs])

theorem blank_iff (l : List Char) (hb : bomChar ∉ l) :
    strippedOf l = [] ↔ stripPy l = [] := by
  rw [strippedOf_no_bom l hb]
  constructor
  · intro h
    unfold stripPy
    rw [h]
    rfl
  · intro h
    cases hr : (rstripPy l).getLast? with
    | none => exact List.getLast?_eq_none_iff.mp hr
    | some x =>
      have hs := rstrip_getLast_not_space l hr
      exact absurd h (lstrip_ne_nil_of_last (rstripPy l) hr hs)

theorem lstripFW_of_head_ne (c : List Char) (h : c.head? ≠ some fwsp) :
    lstripFW c = c := by
  cases c with
  | nil => rfl
  | cons x xs =>
    unfold lstripFW
    rw [List.dropWhile_cons]
    have hx : x ≠ fwsp := fun he => h (by simp [he])
    simp [hx]

theorem lstripFW_two (t : List Char) (h : t.head? ≠ some fwsp) :
    lstripFW (fwsp :: fwsp :: t) = t := by
  unfold lstripFW
  rw [List.dropWhile_cons]
  simp only [beq_self_eq_true, if_pos rfl]
  rw [List.dropWhile_cons]
  simp only [beq_self_eq_true, if_pos rfl]
  exact lstripFW_of_head_ne t h

theorem bom_not_mem_strippedOf (l : List Char) : bomChar ∉ strippedOf l := by
  intro h
  unfold strippedOf removeBOM at h
  have := List.of_mem_filter h
  simp at this

theorem getLast?_emit (t : List Char) (ht : t ≠ []) :
    (fwsp :: fwsp :: t).getLast? = t.getLast? := by
  show ([fwsp, fwsp] ++ t).getLast? = t.getLast?
  rw [List.getLast?_append]
  cases hg : t.getLast? with
  | none => exact absurd (List.getLast?_eq_none_iff.mp hg) ht
  | some c => rfl

theorem getLast?_dropWhile_of_ne (p : Char → Bool) (l : List Char)
    (h : l.dropWhile p ≠ []) : (l.dropWhile p).getLast? = l.getLast? := by
  conv_rhs => rw [← List.takeWhile_append_dropWhile (p := p) (l := l)]
  rw [List.getLast?_append]
  cases hg : (l.dropWhile p).getLast? with
  | none => exact absurd (List.getLast?_eq_none_iff.mp hg) h
  | some c => rfl

theorem emit_nf (line : List Char) (hbom : bomChar ∉ line)
    (hnb : strippedOf line ≠ []) :
    NFLine (fwsp :: fwsp :: lstripFW (strippedOf line)) := by
  have hsr : strippedOf line = rstripPy line := strippedOf_no_bom line hbom
  have hlast : ∀ x, (strippedOf line).getLast? = some x → isPySpace x = false := by
    intro x hx
    exact rstrip_getLast_not_space line (hsr ▸ hx)
  have ht : lstripFW (strippedOf line) ≠ [] := by
    intro h0
    have hall := List.dropWhile_eq_nil_iff.mp h0
    have hx : (strippedOf line).getLast? = some ((strippedOf line).getLast hnb) :=
      List.getLast?_eq_getLast _ hnb
    have hmem := mem_of_getLast?_eq hx
    have hxf : (strippedOf line).getLast hnb = fwsp := by simpa using hall _ hmem
    have := hlast _ hx
    rw [hxf] at this
    exact absurd this (by decide)
  refine Or.inr ⟨lstripFW (strippedOf line), rfl, ht, ?_, ?_, ?_⟩
  · intro hh
    exact lstripFW_head_ne _ hh rfl
  · apply rstrip_eq_self
    intro x hx
    rw [getLast?_emit _ ht] at hx
    unfold lstripFW at ht hx
    rw [getLast?_dropWhile_of_ne _ _ ht] at hx
    exact hlast x hx
  · intro hmem
    rcases List.mem_cons.mp hmem with he | hmem
    · exact absurd he (by decide)
    · rcases List.mem_cons.mp hmem with he | hmem
      · exact absurd he (by decide)
      · exact bom_not_mem_strippedOf line (mem_lstripFW hmem)

theorem NFLine_strippedOf {l : List Char} (h : NFLine l) : strippedOf l = l := by
  rcases h with rfl | ⟨c, rfl, hc, hh, hr, hb⟩
  · rfl
  · rw [strippedOf_no_bom _ hb, hr]

theorem NFLine_stripPy_ne {l : List Char} (h : NFLine l) (hne : l ≠ []) :
    stripPy l ≠ [] := by
  rcases h with rfl | ⟨c, rfl, hc, hh, hr, hb⟩
  · exact absurd rfl hne
  · unfold stripPy
    rw [hr]
    cases hg : (fwsp :: fwsp :: c).getLast? with
    | none => simp at hg
    | some x =>
      apply lstrip_ne_nil_of_last _ hg
      exact rstrip_getLast_not_space _ (by rw [rstripPy] at hr ⊢; rw [hr]; exact hg)

theorem NFLine_isHeading {l : List Char} {c : List Char} (h : NFLine l)
    (he : l = fwsp :: fwsp :: c) (hhd : c.head? ≠ some fwsp) :
    isHeadingLine l = matchesChapter c := by
  unfold isHeadingLine
  rw [NFLine_strippedOf h, he, lstripFW_two c hhd]
  simp

theorem isHeadingLine_nil : isHeadingLine [] = false := rfl

theorem PairOK_nil_left (b : List Char) (hb : b ≠ []) : PairOK [] b :=
  ⟨fun hcon => hb hcon.2, fun hh => absurd hh (by decide), fun _ => rfl⟩

theorem PairOK_nil_right (a : List Char) (ha : a ≠ []) : PairOK a [] :=
  ⟨fun hcon => ha hcon.1, fun _ => rfl, fun hh => absurd hh (by decide)⟩

theorem PairOK_not_heading (a b : List Char) (hane : isHeadingLine a = false)
    (hbne : isHeadingLine b = false) (h : ¬(a = [] ∧ b = [])) : PairOK a b :=
  ⟨h, fun hh => absurd hh (by simp [hane]), fun hh => absurd hh (by simp [hbne])⟩

set_option maxHeartbeats 1000000 in
theorem optLoop_invA : ∀ (ls racc : List (List Char)) (pe : Bool) (st : RunStats),
    (∀ l ∈ ls, bomChar ∉ l) →
    (∀ l ∈ racc, NFLine l) →
    List.Chain' PairOK racc →
    (pe = true → racc.head? = some []) →
    (pe = false → racc.head? = some ([] : List Char) →
      ∃ h t, ls = h :: t ∧ stripPy h ≠ []) →
    (∀ hd, racc.head? = some hd → isHeadingLine hd = true →
      ls = [] ∨ ∃ h t, ls = h :: t ∧ stripPy h = []) →
    (∀ l ∈ (optLoop ls racc pe st).1, NFLine l) ∧
    List.Chain' PairOK (optLoop ls racc pe st).1 := by
  intro ls
  induction ls with
  | nil => intro racc pe st _ h1 h2 _ _ _; exact ⟨h1, h2⟩
  | cons line rest ih =>
    intro racc pe st hbom hNF hchain hpe hblank hhead
    have hbline : bomChar ∉ line := hbom line (List.mem_cons_self _ _)
    have hbrest : ∀ l ∈ rest, bomChar ∉ l := fun l h => hbom l (List.mem_cons_of_mem _ h)
    simp only [optLoop]
    by_cases hb : strippedOf line = []
    · have hstpb : stripPy line = [] := (blank_iff line hbline).mp hb
      simp only [if_pos hb]
      cases pe with
      | true =>
        simp only [reduceIte]
        apply ih _ _ _ hbrest hNF hchain (fun _ => hpe rfl) ?_ ?_
        · intro hh; exact absurd hh (by simp)
        · intro hd hhd hish
          have h0 := hpe rfl
          rw [h0] at hhd
          injection hhd with hhd
          rw [← hhd] at hish
          exact absurd hish (by decide)
      | false =>
        rw [if_neg (by simp : ¬((false : Bool) = true))]
        have hheadne : racc.head? ≠ some ([] : List Char) := by
          intro h0
          obtain ⟨h, t, heq, hste⟩ := hblank rfl h0
          injection heq with he1 he2
          rw [← he1] at hste
          exact hste hstpb
        apply ih _ _ _ hbrest ?_ ?_ ?_ ?_ ?_
        · intro x hx
          rcases List.mem_cons.mp hx with rfl | hx
          · exact Or.inl rfl
          · exact hNF x hx
        · rw [List.chain'_cons']
          refine ⟨?_, hchain⟩
          intro b hbh
          rw [Option.mem_def] at hbh
          have hbne : b ≠ [] := fun h0 => hheadne (h0 ▸ hbh)
          exact PairOK_nil_left b hbne
        · intro _; rfl
        · intro hh; exact absurd hh (by simp)
        · intro hd hhd hish
          simp only [List.head?_cons, Option.some.injEq] at hhd
          rw [← hhd] at hish
          exact absurd hish (by decide)
    · have hstpn : stripPy line ≠ [] := fun hh => hb ((blank_iff line hbline).mpr hh)
      have hnothead : ∀ hd, racc.head? = some hd → isHeadingLine hd = false := by
        intro hd hhd
        cases hish : isHeadingLine hd with
        | false => rfl
        | true =>
          rcases hhead hd hhd hish with heq | ⟨h, t, heq, hstr0⟩
          · exact absurd heq (by simp)
          · injection heq with he1 he2
            rw [← he1] at hstr0
            exact absurd hstr0 hstpn
      simp only [if_neg hb]
      by_cases hc : matchesChapter (lstripFW (strippedOf line)) = true
      · simp only [if_pos hc]
        have hNF0 := emit_nf line hbline hb
        have hth : (lstripFW (strippedOf line)).head? ≠ some fwsp :=
          fun hh => lstripFW_head_ne _ hh rfl
        have hh0 : isHeadingLine (fwsp :: fwsp :: lstripFW (strippedOf line)) = true := by
          rw [NFLine_isHeading hNF0 rfl hth]
          exact hc
        have hinv1 : ∀ (st2 : RunStats) (racc1 : List (List Char)),
            (∀ l ∈ racc1, NFLine l) → List.Chain' PairOK racc1 →
            (racc1.head? = none ∨ racc1.head? = some []) →
            (∀ l ∈ (optLoop rest
              (match rest.head? with
                | some nxt => if stripPy nxt = [] then
                    (fwsp :: fwsp :: lstripFW (strippedOf line)) :: racc1
                  else [] :: (fwsp :: fwsp :: lstripFW (strippedOf line)) :: racc1
                | none => (fwsp :: fwsp :: lstripFW (strippedOf line)) :: racc1)
              false st2).1, NFLine l) ∧
            List.Chain' PairOK (optLoop rest
              (match rest.head? with
                | some nxt => if stripPy nxt = [] then
                    (fwsp :: fwsp :: lstripFW (strippedOf line)) :: racc1
                  else [] :: (fwsp :: fwsp :: lstripFW (strippedOf line)) :: racc1
                | none => (fwsp :: fwsp :: lstripFW (strippedOf line)) :: racc1)
              false st2).1 := by
          intro st2 racc1 hNF1 hchain1 hhead1
          have hNF2 : ∀ l ∈ (fwsp :: fwsp :: lstripFW (strippedOf line)) :: racc1,
              NFLine l := by
            intro x hx
            rcases List.mem_cons.mp hx with rfl | hx
            · exact hNF0
            · exact hNF1 x hx
          have hchain2 : List.Chain'
              PairOK ((fwsp :: fwsp :: lstripFW (strippedOf line)) :: racc1) := by
            rw [List.chain'_cons']
            refine ⟨?_, hchain1⟩
            intro b hbh
            rw [Option.mem_def] at hbh
            rcases hhead1 with hn | hs
            · rw [hn] at hbh; exact absurd hbh (by simp)
            · rw [hs] at hbh
              injection hbh with hbh
              rw [← hbh]
              exact PairOK_nil_right _ (by simp)
          cases rest with
          | nil =>
            simp only [List.head?_nil]
            exact ⟨hNF2, hchain2⟩
          | cons nxt rest2 =>
            simp only [List.head?_cons]
            by_cases hn : stripPy nxt = []
            · simp only [if_pos hn]
              apply ih _ _ _ hbrest hNF2 hchain2 ?_ ?_ ?_
              · intro hh; exact absurd hh (by simp)
              · intro _ hh
                simp only [List.head?_cons, Option.some.injEq] at hh
                exact absurd hh (by simp)
              · intro hd hhd hish
                exact Or.inr ⟨nxt, rest2, rfl, hn⟩
            · simp only [if_neg hn]
              apply ih _ _ _ hbrest ?_ ?_ ?_ ?_ ?_
              · intro x hx
                rcases List.mem_cons.mp hx with rfl | hx
                · exact Or.inl rfl
                · exact hNF2 x hx
              · rw [List.chain'_cons']
                refine ⟨?_, hchain2⟩
                intro b hbh
                rw [Option.mem_def] at hbh
                simp only [List.head?_cons, Option.some.injEq] at hbh
                rw [← hbh]
                exact PairOK_nil_left _ (by simp)
              · intro hh; exact absurd hh (by simp)
              · intro _ _
                exact ⟨nxt, rest2, rfl, hn⟩
              · intro hd hhd hish
                simp only [List.head?_cons, Option.some.injEq] at hhd
                rw [← hhd] at hish
                exact absurd hish (by decide)
        cases hrc : racc with
        | nil =>
          simp only [List.head?_nil]
          exact hinv1 _ [] (by intro x hx; simp at hx) List.chain'_nil (Or.inl rfl)
        | cons rh rt =>
          simp only [List.head?_cons]
          by_cases hrh : stripPy rh = []
          · simp only [if_pos hrh]
            have hrhnil : rh = [] := by
              cases hNFrh : rh with
              | nil => rfl
              | cons a b =>
                have := NFLine_stripPy_ne (hNF rh (hrc ▸ List.mem_cons_self _ _))
                  (by rw [hNFrh]; simp)
                rw [hNFrh] at this
                exact absurd (hNFrh ▸ hrh) this
            exact hinv1 _ (rh :: rt) (fun x hx => hNF x (hrc ▸ hx)) (hrc ▸ hchain)
              (Or.inr (by rw [hrhnil]; rfl))
          · simp only [if_neg hrh]
            refine hinv1 _ ([] :: rh :: rt) ?_ ?_ (Or.inr rfl)
            · intro x hx
              rcases List.mem_cons.mp hx with rfl | hx
              · exact Or.inl rfl
              · exact hNF x (hrc ▸ hx)
            · rw [List.chain'_cons']
              refine ⟨?_, hrc ▸ hchain⟩
              intro b hbh
              rw [Option.mem_def] at hbh
              simp only [List.head?_cons, Option.some.injEq] at hbh
              rw [← hbh]
              exact PairOK_nil_left rh (fun h0 => hrh (by rw [h0]; rfl))
      · simp only [if_neg hc]
        have hNFp := emit_nf line hbline hb
        have hp0 : isHeadingLine (fwsp :: fwsp :: lstripFW (strippedOf line)) = false := by
          rw [NFLine_isHeading hNFp rfl (fun hh => lstripFW_head_ne _ hh rfl)]
          simpa using hc
        apply ih _ _ _ hbrest ?_ ?_ ?_ ?_ ?_
        · intro x hx
          rcases List.mem_cons.mp hx with rfl | hx
          · exact hNFp
          · exact hNF x hx
        · rw [List.chain'_cons']
          refine ⟨?_, hchain⟩
          intro b hbh
          rw [Option.mem_def] at hbh
          exact PairOK_not_heading _ b hp0 (hnothead b hbh) (fun hcon => by simp at hcon)
        · intro hh; exact absurd hh (by simp)
        · intro _ hh
          simp only [List.head?_cons, Option.some.injEq] at hh
          exact absurd hh (by simp)
        · intro hd hhd hish
          simp only [List.head?_cons, Option.some.injEq] at hhd
          rw [← hhd] at hish
          rw [hp0] at hish
          exact absurd hish (by simp)

theorem NFLine_no_bom {l : List Char} (h : NFLine l) : bomChar ∉ l := by
  rcases h with rfl | ⟨c, rfl, _, _, _, hb⟩
  · simp
  · exact hb

set_option maxHeartbeats 1000000 in
theorem optLoop_id : ∀ (ls racc : List (List Char)) (st : RunStats) (pe : Bool),
    (∀ l ∈ ls, NFLine l) →
    List.Chain' PairOK ls →
    pe = decide (racc.head? = some ([] : List Char)) →
    (∀ p, racc.head? = some p → ∀ l0, ls.head? = some l0 → PairOK p l0) →
    optLoop ls racc pe st =
      (ls.reverse ++ racc,
       { st with chapters_found := st.chapters_found + ls.countP isHeadingLine }) := by
  intro ls
  induction ls with
  | nil =>
    intro racc st pe _ _ _ _
    simp [optLoop]
  | cons l0 rest ih =>
    intro racc st pe hNF hchain hpe hbound
    have hNF0 : NFLine l0 := hNF _ (List.mem_cons_self _ _)
    have hNFr : ∀ l ∈ rest, NFLine l := fun l h => hNF l (List.mem_cons_of_mem _ h)
    have hchr : List.Chain' PairOK rest := (List.chain'_cons'.mp hchain).2
    have hpair : ∀ r, rest.head? = some r → PairOK l0 r := by
      intro r hr
      exact (List.chain'_cons'.mp hchain).1 r (by rw [Option.mem_def]; exact hr)
    simp only [optLoop]
    rcases hid : hNF0 with hl0nil | ⟨c, hc, hcne, hchd, hrst, hbom0⟩
    · subst hl0nil
      have hb : strippedOf ([] : List Char) = [] := rfl
      simp only [hb, reduceIte]
      have hpf : pe = false := by
        rw [hpe]
        cases hh : racc.head? with
        | none => rfl
        | some p =>
          have hpk := hbound p hh [] rfl
          have hpne : p ≠ [] := fun h0 => hpk.1 ⟨h0, rfl⟩
          simp [hpne]
      subst hpf
      rw [if_neg (by simp : ¬((false : Bool) = true))]
      rw [if_neg (fun hcon => hcon rfl : ¬(rstripPy ([] : List Char) ≠ []))]
      rw [ih ([] :: racc) st true hNFr hchr (by simp) ?_]
      · simp [List.countP_cons, isHeadingLine_nil]
      · intro p hp l1 hl1
        simp only [List.head?_cons, Option.some.injEq] at hp
        rw [← hp]
        exact hpair l1 hl1
    · subst hc
      have hNFl0 : NFLine (fwsp :: fwsp :: c) := hNF0
      have hstr0 : strippedOf (fwsp :: fwsp :: c) = fwsp :: fwsp :: c :=
        NFLine_strippedOf hNFl0
      have hlfw : lstripFW (fwsp :: fwsp :: c) = c := lstripFW_two c hchd
      have hheadeq : isHeadingLine (fwsp :: fwsp :: c) = matchesChapter c :=
        NFLine_isHeading hNFl0 rfl hchd
      have hl0ne : (fwsp :: fwsp :: c) ≠ ([] : List Char) := by simp
      simp only [hstr0, hlfw]
      rw [if_neg (by simp : ¬((fwsp :: fwsp :: c : List Char) = []))]
      rw [if_neg (fun hcon => hcon hrst :
        ¬(rstripPy (fwsp :: fwsp :: c) ≠ fwsp :: fwsp :: c))]
      by_cases hmc : matchesChapter c = true
      · rw [if_pos hmc]
        have hh0 : isHeadingLine (fwsp :: fwsp :: c) = true := by rw [hheadeq]; exact hmc
        have hracc1 : (match racc.head? with
            | some h => if stripPy h = [] then racc else [] :: racc
            | none => racc) = racc := by
          cases hh : racc.head? with
          | none => rfl
          | some p =>
            have hp0 : p = [] := (hbound p hh _ rfl).2.2 hh0
            simp only [hp0]
            rw [if_pos (show stripPy ([] : List Char) = [] from rfl)]
        rw [hracc1]
        have hracc3 : (match rest.head? with
            | some nxt => if stripPy nxt = [] then
                (fwsp :: fwsp :: c) :: racc
              else [] :: (fwsp :: fwsp :: c) :: racc
            | none => (fwsp :: fwsp :: c) :: racc) = (fwsp :: fwsp :: c) :: racc := by
          cases hh : rest.head? with
          | none => rfl
          | some r =>
            have hr0 : r = [] := (hpair r hh).2.1 hh0
            rw [hr0]
            simp only []
            rw [if_pos (show stripPy ([] : List Char) = [] from rfl)]
        rw [hracc3]
        rw [ih ((fwsp :: fwsp :: c) :: racc) _ false hNFr hchr (by simp) ?_]
        · rw [List.countP_cons]
          simp only [hh0, eq_self_iff_true, if_true, List.reverse_cons,
            List.append_assoc, List.singleton_append, Prod.mk.injEq, RunStats.mk.injEq,
            true_and, and_true]
          omega
        · intro p hp l1 hl1
          simp only [List.head?_cons, Option.some.injEq] at hp
          rw [← hp]
          exact hpair l1 hl1
      · rw [if_neg hmc]
        rw [if_neg (fun hcon => hcon rfl)]
        rw [ih ((fwsp :: fwsp :: c) :: racc) st false hNFr hchr (by simp) ?_]
        · rw [List.countP_cons]
          simp only [hheadeq]
          rw [if_neg hmc]
          simp [List.reverse_cons, List.append_assoc]
        · intro p hp l1 hl1
          simp only [List.head?_cons, Option.some.injEq] at hp
          rw [← hp]
          exact hpair l1 hl1

theorem trimTrailing_noop (racc : List (List Char)) (st : RunStats)
    (h : ∀ l, racc.head? = some l → stripPy l ≠ []) :
    trimTrailing racc st = (racc, st) := by
  cases racc with
  | nil => rfl
  | cons x r =>
    simp only [trimTrailing]
    rw [if_neg (h x rfl)]

theorem optimizeLines_nf (ls : List (List Char)) (hbom : ∀ l ∈ ls, bomChar ∉ l) :
    (∀ l ∈ (optimizeLines ls).1, NFLine l) ∧
    List.Chain' PairOK (optimizeLines ls).1 ∧
    (∀ l, (optimizeLines ls).1.getLast? = some l → stripPy l ≠ []) := by
  obtain ⟨hNF, hchain⟩ := optLoop_invA ls [] false (initStats ls) hbom
    (by intro x hx; simp at hx) List.chain'_nil
    (by intro h; exact absurd h (by simp))
    (by intro _ h; simp at h)
    (by intro hd h; simp at h)
  unfold optimizeLines
  simp only
  refine ⟨?_, ?_, ?_⟩
  · intro l hl
    have h1 := List.mem_reverse.mp hl
    exact hNF l ((trimTrailing_suffix _ _).subset h1)
  · have hchain2 := List.Chain'.suffix hchain
      (trimTrailing_suffix (optLoop ls [] false (initStats ls)).1
        (optLoop ls [] false (initStats ls)).2)
    rw [List.chain'_reverse]
    apply hchain2.imp
    intro a b hab
    exact ⟨fun hcon => hab.1 ⟨hcon.2, hcon.1⟩, hab.2.2, hab.2.1⟩
  · intro l hlast
    rw [List.getLast?_reverse] at hlast
    exact trimTrailing_head_not_blank _ _ l hlast

theorem optimizeLines_id (out : List (List Char))
    (hNF : ∀ l ∈ out, NFLine l) (hchain : List.Chain' PairOK out)
    (hlast : ∀ l, out.getLast? = some l → stripPy l ≠ []) :
    optimizeLines out =
      (out, { initStats out with
        chapters_found := out.countP isHeadingLine }) := by
  unfold optimizeLines
  rw [optLoop_id out [] (initStats out) false hNF hchain (by simp)
    (by intro p hp; simp at hp)]
  simp only [List.append_nil]
  rw [trimTrailing_noop _ _ ?_]
  · simp [List.reverse_reverse, initStats]
  · intro l hl
    rw [List.head?_reverse] at hl
    exact hlast l hl

theorem mem_splitNL_subset (cs : List Char) :
    ∀ l ∈ splitNL cs, ∀ c ∈ l, c ∈ cs := by
  induction cs with
  | nil =>
    intro l hl c hc
    simp [splitNL] at hl
    rw [hl] at hc
    simp at hc
  | cons x rest ih =>
    intro l hl c hc
    simp only [splitNL] at hl
    split at hl
    · rcases List.mem_cons.mp hl with rfl | hl
      · simp at hc
      · exact List.mem_cons_of_mem _ (ih l hl c hc)
    · cases hs : splitNL rest with
      | nil => exact absurd hs (splitNL_ne_nil rest)
      | cons y ys =>
        rw [hs] at hl
        rcases List.mem_cons.mp hl with rfl | hl
        · rcases List.mem_cons.mp hc with rfl | hc
          · exact List.mem_cons_self _ _
          · exact List.mem_cons_of_mem _
              (ih y (hs ▸ List.mem_cons_self y ys) c hc)
        · exact List.mem_cons_of_mem _
            (ih l (hs ▸ List.mem_cons_of_mem y hl) c hc)

theorem splitNL_no_nl_single (l : List Char) (h : '\n' ∉ l) : splitNL l = [l] := by
  induction l with
  | nil => rfl
  | cons c rest ih =>
    have hc : c ≠ '\n' := fun he => h (he ▸ List.mem_cons_self _ _)
    have hr : '\n' ∉ rest := fun hm => h (List.mem_cons_of_mem _ hm)
    simp only [splitNL, if_neg hc]
    rw [ih hr]

theorem splitNL_append_nl (l cs : List Char) (h : '\n' ∉ l) :
    splitNL (l ++ '\n' :: cs) = l :: splitNL cs := by
  induction l with
  | nil =>
    simp [splitNL]
  | cons c rest ih =>
    have hc : c ≠ '\n' := fun he => h (he ▸ List.mem_cons_self _ _)
    have hr : '\n' ∉ rest := fun hm => h (List.mem_cons_of_mem _ hm)
    simp only [List.cons_append, splitNL, if_neg hc, List.append_eq]
    rw [ih hr]

theorem splitNL_joinNL (out : List (List Char)) (hne : out ≠ [])
    (hnl : ∀ l ∈ out, '\n' ∉ l) : splitNL (joinNL out) = out := by
  induction out with
  | nil => exact absurd rfl hne
  | cons x rest ih =>
    cases rest with
    | nil =>
      show splitNL (joinNL [x]) = [x]
      exact splitNL_no_nl_single x (hnl x (List.mem_cons_self _ _))
    | cons y r =>
      show splitNL (x ++ '\n' :: joinNL (y :: r)) = x :: y :: r
      rw [splitNL_append_nl x _ (hnl x (List.mem_cons_self _ _))]
      rw [ih (by simp) (fun l hl => hnl l (List.mem_cons_of_mem _ hl))]

theorem mem_joinNL (out : List (List Char)) :
    ∀ c ∈ joinNL out, c = '\n' ∨ ∃ l ∈ out, c ∈ l := by
  induction out with
  | nil => intro c hc; simp [joinNL] at hc
  | cons x rest ih =>
    intro c hc
    cases rest with
    | nil =>
      exact Or.inr ⟨x, List.mem_cons_self _ _, hc⟩
    | cons y r =>
      rcases List.mem_append.mp hc with hx | hy
      · exact Or.inr ⟨x, List.mem_cons_self _ _, hx⟩
      · rcases List.mem_cons.mp hy with rfl | hy
        · exact Or.inl rfl
        · rcases ih c hy with h | ⟨l, hl, hcl⟩
          · exact Or.inl h
          · exact Or.inr ⟨l, List.mem_cons_of_mem _ hl, hcl⟩

theorem readContent_id (cs : List Char) (h : bomChar ∉ cs) : readContent cs = cs := by
  have hh : cs.head? ≠ some bomChar := by
    intro h0
    cases cs with
    | nil => simp at h0
    | cons a r =>
      simp only [List.head?_cons, Option.some.injEq] at h0
      exact h (h0 ▸ List.mem_cons_self _ _)
  unfold readContent decodeUtf8Sig
  rw [if_neg hh, if_neg hh]

/-- C4 (amended): for every input whose decoded content contains no
byte-order mark, the Normalizer output never contains two adjacent lines
that are both empty, including across the blank lines inserted before and
after chapter headings.  The amendment excludes byte-order marks inside the
content: a line containing only a byte-order mark defeats the strip()-based
lookahead and produces two adjacent blanks (see the counterexample). -/
theorem C4_no_consecutive_blanks_amended (raw : List Char)
    (hb : bomChar ∉ readContent raw) (k : Nat)
    (h : k + 1 < (optimizeOutput raw).length) :
    ¬((optimizeOutput raw).getD k [] = [] ∧
      (optimizeOutput raw).getD (k + 1) [] = []) := by
  have hbl : ∀ l ∈ splitNL (readContent raw), bomChar ∉ l := fun l hl hc =>
    hb (mem_splitNL_subset _ l hl bomChar hc)
  obtain ⟨hNF, hchain, hlast⟩ := optimizeLines_nf (splitNL (readContent raw)) hbl
  have hlen : (optimizeLines (splitNL (readContent raw))).1.length =
      (optimizeOutput raw).length := rfl
  have hpair := (List.chain'_iff_get.mp hchain) k (by omega)
  intro hcon
  obtain ⟨h1, h2⟩ := hcon
  rw [List.getD_eq_getElem _ _ (by omega : k < (optimizeOutput raw).length)] at h1
  rw [List.getD_eq_getElem _ _ (by omega : k + 1 < (optimizeOutput raw).length)] at h2
  apply hpair.1
  constructor
  · simpa using h1
  · simpa using h2

/-- C4 witness: a plain three-line document with one blank line in the
middle keeps that blank isolated. -/
theorem C4_no_consecutive_blanks_amended_witness :
    (bomChar ∉ readContent ('a' :: '\n' :: '\n' :: 'b' :: []) ∧
      0 + 1 < (optimizeOutput ('a' :: '\n' :: '\n' :: 'b' :: [])).length) ∧
    ¬((optimizeOutput ('a' :: '\n' :: '\n' :: 'b' :: [])).getD 0 [] = [] ∧
      (optimizeOutput ('a' :: '\n' :: '\n' :: 'b' :: [])).getD (0 + 1) [] = []) :=
  ⟨⟨by decide, by decide⟩,
    C4_no_consecutive_blanks_amended ('a' :: '\n' :: '\n' :: 'b' :: [])
      (by decide) 0 (by decide)⟩

/-- C1 (amended): for every input whose decoded content contains no
byte-order mark, normalizing is idempotent: running the Normalizer on its
own output reproduces that output byte for byte (so no line is re-prefixed
differently), the second run reports formatting_fixed equal to 0, and the
second run's main pass performs no blank collapsing (its
empty_lines_removed counter is still 0 when the main loop finishes).  The
amendment excludes byte-order marks inside the content: they defeat the
strip()-based lookahead, the first run then emits two adjacent blank lines
and the second run collapses them (see the counterexample). -/
theorem C1_idempotent_amended (raw : List Char) (hb : bomChar ∉ readContent raw) :
    optimizeText (optimizeText raw) = optimizeText raw ∧
    (optimizeStats (optimizeText raw)).formatting_fixed = 0 ∧
    (optLoop (splitNL (readContent (optimizeText raw))) [] false
      (initStats (splitNL (readContent (optimizeText raw))))).2.empty_lines_removed
      = 0 := by
  have hbl : ∀ l ∈ splitNL (readContent raw), bomChar ∉ l := fun l hl hc =>
    hb (mem_splitNL_subset _ l hl bomChar hc)
  obtain ⟨hNF, hchain, hlast⟩ := optimizeLines_nf (splitNL (readContent raw)) hbl
  have hnobom : ∀ l ∈ optimizeOutput raw, bomChar ∉ l := fun l hl =>
    NFLine_no_bom (hNF l hl)
  have hnonl : ∀ l ∈ optimizeOutput raw, '\n' ∉ l := by
    refine optimizeOutput_forall _ (by simp) raw ?_
    intro line hline hmem
    rcases List.mem_cons.mp hmem with heq | hmem
    · exact absurd heq (by decide)
    · rcases List.mem_cons.mp hmem with heq | hmem
      · exact absurd heq (by decide)
      · exact splitNL_no_nl _ line hline (mem_strippedOf (mem_lstripFW hmem))
  have hbt : bomChar ∉ optimizeText raw := by
    intro hmem
    rcases mem_joinNL _ bomChar hmem with he | ⟨l, hl, hcl⟩
    · exact absurd he (by decide)
    · exact hnobom l hl hcl
  have hrt : readContent (optimizeText raw) = optimizeText raw := readContent_id _ hbt
  by_cases hout : optimizeOutput raw = []
  · have ht : optimizeText raw = [] := by rw [optimizeText, hout]; rfl
    rw [ht]
    refine ⟨by decide, by decide, by decide⟩
  · have hsplit : splitNL (readContent (optimizeText raw)) = optimizeOutput raw := by
      rw [hrt]
      exact splitNL_joinNL _ hout hnonl
    have hid := optimizeLines_id (optimizeOutput raw) hNF hchain hlast
    refine ⟨?_, ?_, ?_⟩
    · show joinNL (optimizeLines (splitNL (readContent (optimizeText raw)))).1 =
        optimizeText raw
      rw [hsplit, hid]
      rfl
    · show (optimizeLines (splitNL (readContent (optimizeText raw)))).2.formatting_fixed
        = 0
      rw [hsplit, hid]
      rfl
    · rw [hsplit]
      rw [optLoop_id (optimizeOutput raw) [] (initStats (optimizeOutput raw)) false hNF
        hchain (by simp) (by intro p hp; simp at hp)]
      rfl

/-- C1 witness: a two-paragraph document; its normalization is a fixed
point of the Normalizer. -/
theorem C1_idempotent_amended_witness :
    bomChar ∉ readContent ('a' :: '\n' :: 'b' :: []) ∧
    (optimizeText (optimizeText ('a' :: '\n' :: 'b' :: [])) =
        optimizeText ('a' :: '\n' :: 'b' :: []) ∧
      (optimizeStats (optimizeText ('a' :: '\n' :: 'b' :: []))).formatting_fixed = 0 ∧
      (optLoop (splitNL (readContent (optimizeText ('a' :: '\n' :: 'b' :: [])))) [] false
        (initStats (splitNL (readContent
          (optimizeText ('a' :: '\n' :: 'b' :: [])))))).2.empty_lines_removed = 0) :=
  ⟨by decide, C1_idempotent_amended ('a' :: '\n' :: 'b' :: []) (by decide)⟩
